import Mathlib

set_option maxRecDepth 100000
set_option maxHeartbeats 1000000

/-!
# SpendWise tamper-evident ledger: a shallow embedding

This file embeds the blockchain-style ledger utilities of
`backend/utils/blockchain_utils.py` (class `SpendWiseBlockchain` and the
module-level helper functions) into Lean 4 and proves the specification
claims about them.

Modelling conventions:
* A Python transaction dict is modelled by the structure `Transaction`.
  Fields that every real transaction carries (`id`, `amount`, `currency`,
  `categoryId`, `timestamp`, `nonce`, `version`) are plain fields; the two
  hash fields, which the source reads with `dict.get` and which may be
  absent, are `Option String` (with `none` standing for a missing key).
* Numeric transaction fields (`amount`, `timestamp`, `billDueAt`) are
  modelled as integers; the source stores numbers and renders them with
  `str(...)` inside the hash input.
* `hashlib.sha256(...).hexdigest()` is implemented bit-for-bit as `sha256hex`
  over the UTF-8 bytes of the input string (all hash inputs are ASCII).
* Python's stable `sorted(key=timestamp)` is modelled by Mathlib's stable
  `List.insertionSort` on the timestamp order.
-/

namespace SHA256

/-- 32-bit truncation. -/
def mask32 (x : Nat) : Nat := x % 4294967296

/-- Right rotation of a 32-bit word. -/
def rotr (n x : Nat) : Nat := mask32 ((x >>> n) ||| (x <<< (32 - n)))

/-- The SHA-256 round constants (FIPS 180-4), in decimal. -/
def K : Array Nat := #[
  1116352408, 1899447441, 3049323471, 3921009573,
  961987163, 1508970993, 2453635748, 2870763221,
  3624381080, 310598401, 607225278, 1426881987,
  1925078388, 2162078206, 2614888103, 3248222580,
  3835390401, 4022224774, 264347078, 604807628,
  770255983, 1249150122, 1555081692, 1996064986,
  2554220882, 2821834349, 2952996808, 3210313671,
  3336571891, 3584528711, 113926993, 338241895,
  666307205, 773529912, 1294757372, 1396182291,
  1695183700, 1986661051, 2177026350, 2456956037,
  2730485921, 2820302411, 3259730800, 3345764771,
  3516065817, 3600352804, 4094571909, 275423344,
  430227734, 506948616, 659060556, 883997877,
  958139571, 1322822218, 1537002063, 1747873779,
  1955562222, 2024104815, 2227730452, 2361852424,
  2428436474, 2756734187, 3204031479, 3329325298]

/-- Working state of the compression function. -/
structure St where
  a : Nat
  b : Nat
  c : Nat
  d : Nat
  e : Nat
  f : Nat
  g : Nat
  h : Nat

/-- The SHA-256 initial hash value (FIPS 180-4), in decimal. -/
def initSt : St :=
  ⟨1779033703, 3144134277, 1013904242, 2773480762,
   1359893119, 2600822924, 528734635, 1541459225⟩

/-- Split a list into chunks of `k` elements (fuel-driven; `fuel ≥ l.length`). -/
def chunksAux (k : Nat) : Nat → List Nat → List (List Nat)
  | 0, _ => []
  | _, [] => []
  | fuel + 1, l => l.take k :: chunksAux k fuel (l.drop k)

/-- Split a byte list into chunks of `k` elements. -/
def chunks (k : Nat) (l : List Nat) : List (List Nat) := chunksAux k l.length l

/-- Big-endian combination of four bytes into one 32-bit word. -/
def word4 (l : List Nat) : Nat :=
  (l.getD 0 0) * 16777216 + (l.getD 1 0) * 65536 + (l.getD 2 0) * 256 + l.getD 3 0

/-- SHA-256 message padding: append `0x80`, zeros, and the 64-bit message bit length. -/
def pad (msg : List Nat) : List Nat :=
  let bitLen := msg.length * 8
  let z := (119 - msg.length % 64) % 64
  msg ++ [0x80] ++ List.replicate z 0 ++
    ((List.range 8).map fun i => (bitLen >>> (56 - 8 * i)) % 256)

/-- Extend the 16 block words to the 64-entry message schedule. -/
def schedule (w0 : Array Nat) : Array Nat :=
  (List.range 48).foldl (fun w i =>
    let t := i + 16
    let x15 := w.getD (t - 15) 0
    let x2 := w.getD (t - 2) 0
    let s0 := (rotr 7 x15) ^^^ (rotr 18 x15) ^^^ (x15 >>> 3)
    let s1 := (rotr 17 x2) ^^^ (rotr 19 x2) ^^^ (x2 >>> 10)
    w.push (mask32 (w.getD (t - 16) 0 + s0 + w.getD (t - 7) 0 + s1))) w0

/-- One round of the SHA-256 compression function. -/
def round (w : Array Nat) (s : St) (t : Nat) : St :=
  let s1 := (rotr 6 s.e) ^^^ (rotr 11 s.e) ^^^ (rotr 25 s.e)
  let ch := (s.e &&& s.f) ^^^ ((s.e ^^^ 4294967295) &&& s.g)
  let temp1 := mask32 (s.h + s1 + ch + K.getD t 0 + w.getD t 0)
  let s0 := (rotr 2 s.a) ^^^ (rotr 13 s.a) ^^^ (rotr 22 s.a)
  let maj := (s.a &&& s.b) ^^^ (s.a &&& s.c) ^^^ (s.b &&& s.c)
  let temp2 := mask32 (s0 + maj)
  ⟨mask32 (temp1 + temp2), s.a, s.b, s.c, mask32 (s.d + temp1), s.e, s.f, s.g⟩

/-- Compress one 64-byte block into the running hash state. -/
def compress (s : St) (block : List Nat) : St :=
  let w := schedule (Array.mk ((chunks 4 block).map word4))
  let z := (List.range 64).foldl (round w) s
  ⟨mask32 (s.a + z.a), mask32 (s.b + z.b), mask32 (s.c + z.c), mask32 (s.d + z.d),
   mask32 (s.e + z.e), mask32 (s.f + z.f), mask32 (s.g + z.g), mask32 (s.h + z.h)⟩

/-- One hexadecimal digit. -/
def hexDigit (n : Nat) : Char := if n < 10 then Char.ofNat (48 + n) else Char.ofNat (87 + n)

/-- Lowercase 8-hex-digit rendering of a 32-bit word, most significant nibble first. -/
def wordHex (x : Nat) : List Char :=
  (List.range 8).map fun i => hexDigit ((x >>> (28 - 4 * i)) % 16)

/-- SHA-256 digest of a byte list, as a lowercase hex string. -/
def sha256 (msg : List Nat) : String :=
  let s := (chunks 64 (pad msg)).foldl compress initSt
  String.mk (List.flatten ([s.a, s.b, s.c, s.d, s.e, s.f, s.g, s.h].map wordHex))

/-- The UTF-8 bytes of a string; every string hashed by the ledger is ASCII,
for which the UTF-8 encoding is the code-point sequence. -/
def strBytes (s : String) : List Nat := s.data.map fun c => c.toNat

end SHA256

/-- `hashlib.sha256(s.encode()).hexdigest()`. -/
def sha256hex (s : String) : String := SHA256.sha256 (SHA256.strBytes s)

/-- Validation of the SHA-256 implementation on the standard test vector. -/
theorem sha256hex_abc :
    sha256hex "abc" = "ba7816bf8f01cfea414140de5dae2223b00361a396177a9cb410ff61f20015ad" := by
  decide

/-- A SpendWise transaction record. Mirrors the dict handled by
`SpendWiseBlockchain`: the always-present domain fields are plain, while the
two hash fields are `Option` (a missing dict key is `none`); the source reads
them with `dict.get`, whose default then applies. -/
structure Transaction where
  id : String
  amount : Int
  currency : String
  categoryId : String
  timestamp : Int
  billDueAt : Option Int
  previousHash : Option String
  currentHash : Option String
  nonce : Int
  version : Int
deriving DecidableEq, Repr

/-- `SpendWiseBlockchain.GENESIS_HASH`. -/
def GENESIS_HASH : String :=
  "0000000000000000000000000000000000000000000000000000000000000000"

/-- The `billDueAt` component of the hash input:
`str(t.get("billDueAt", "") if t.get("billDueAt") else "")`.
A missing value and the falsy value `0` both render as the empty string. -/
def billDueStr : Option Int → String
  | none => ""
  | some b => if b = 0 then "" else toString b

/-- The canonical hash input of `SpendWiseBlockchain.compute_hash`:
`id|amount|currency|categoryId|timestamp|billDueAt|previousHash|nonce`. -/
def hashInput (t : Transaction) : String :=
  String.intercalate "|" [t.id, toString t.amount, t.currency, t.categoryId,
    toString t.timestamp, billDueStr t.billDueAt, t.previousHash.getD "", toString t.nonce]

/-- `SpendWiseBlockchain.compute_hash`. -/
def compute_hash (t : Transaction) : String := sha256hex (hashInput t)

/-- `SpendWiseBlockchain.create_genesis_transaction`. -/
def create_genesis_transaction (d : Transaction) : Transaction :=
  let t := { d with previousHash := some GENESIS_HASH, nonce := 0 }
  { t with currentHash := some (compute_hash t) }

/-- `SpendWiseBlockchain.create_chained_transaction`: the new entry's
`previousHash` is `previous_transaction.get("currentHash", GENESIS_HASH)`. -/
def create_chained_transaction (d prev : Transaction) : Transaction :=
  let t := { d with previousHash := some (prev.currentHash.getD GENESIS_HASH), nonce := 0 }
  { t with currentHash := some (compute_hash t) }

/-- Module-level `create_new_transaction`: chained when a previous transaction
is given, genesis otherwise. -/
def create_new_transaction (d : Transaction) : Option Transaction → Transaction
  | some p => create_chained_transaction d p
  | none => create_genesis_transaction d

/-- `SpendWiseBlockchain.verify_transaction_hash`: the recomputed digest must
equal the stored `currentHash` (a missing stored hash never matches). -/
def verify_transaction_hash (t : Transaction) : Bool :=
  t.currentHash == some (compute_hash t)

/-- Timestamp order used by every `sorted(transactions, key=timestamp)` call. -/
def tsLE (a b : Transaction) : Prop := a.timestamp ≤ b.timestamp

instance : DecidableRel tsLE := fun a b => inferInstanceAs (Decidable (a.timestamp ≤ b.timestamp))

instance : IsTotal Transaction tsLE := ⟨fun a b => Int.le_total a.timestamp b.timestamp⟩

instance : IsTrans Transaction tsLE := ⟨fun _ _ _ hab hbc => le_trans hab hbc⟩

/-- Python's stable `sorted(transactions, key=lambda x: x.get("timestamp", 0))`,
modelled by Mathlib's stable insertion sort. -/
def sortTs (l : List Transaction) : List Transaction := List.insertionSort tsLE l

/-- One structured error record appended by `verify_chain_integrity`. -/
structure ChainError where
  index : Nat
  transaction_id : String
  error : String
  expected : Option String
  actual : Option String
deriving DecidableEq, Repr

/-- The report returned by `verify_chain_integrity`. -/
structure IntegrityReport where
  is_valid : Bool
  total_transactions : Nat
  verified_count : Nat
  integrity_score : ℚ
  errors : List ChainError
  failed_at_index : Option Nat
  failed_transaction_id : Option String
deriving DecidableEq, Repr

/-- Round a rational to the nearest integer, ties to even: the rounding rule
of Python's `round` on exact values. -/
def roundHalfEven (q : ℚ) : ℤ :=
  let f : ℤ := ⌊q⌋
  let r : ℚ := q - (f : ℚ)
  if r < 1 / 2 then f
  else if 1 / 2 < r then f + 1
  else if f % 2 = 0 then f else f + 1

/-- Python's `round(x, 2)`, modelled as exact rational rounding to two decimal
places with ties to even (the source rounds the float integrity score to two
decimals). -/
def round2 (q : ℚ) : ℚ := (roundHalfEven (q * 100) : ℚ) / 100

/-- The verification walk of `verify_chain_integrity` over the sorted list:
`prev` is the transaction at the preceding index (`none` at index 0, so the
genesis rule applies exactly when `i == 0`), `i` is the running index. Returns
`verified_count` and the `errors` list; the walk stops at the first failed
check, so at most one error is recorded. -/
def verifyLoop (prev : Option Transaction) (i : Nat) :
    List Transaction → Nat × List ChainError
  | [] => (0, [])
  | t :: rest =>
    if verify_transaction_hash t = false then
      (0, [⟨i, t.id, "Invalid hash computation", some (compute_hash t), t.currentHash⟩])
    else
      match prev with
      | none =>
        if t.previousHash ≠ some GENESIS_HASH then
          (0, [⟨i, t.id, "Invalid genesis previousHash", some GENESIS_HASH, t.previousHash⟩])
        else
          let r := verifyLoop (some t) (i + 1) rest
          (r.1 + 1, r.2)
      | some p =>
        if t.previousHash ≠ p.currentHash then
          (0, [⟨i, t.id, "Broken chain link", p.currentHash, t.previousHash⟩])
        else
          let r := verifyLoop (some t) (i + 1) rest
          (r.1 + 1, r.2)

/-- `SpendWiseBlockchain.verify_chain_integrity`. The `try/except` of the
source is dead in this model: every operation in the loop is total. -/
def verify_chain_integrity (transactions : List Transaction) : IntegrityReport :=
  if transactions.isEmpty then
    ⟨true, 0, 0, 100, [], none, none⟩
  else
    let r := verifyLoop none 0 (sortTs transactions)
    let n := transactions.length
    ⟨r.1 == n, n, r.1, round2 ((r.1 : ℚ) / (n : ℚ) * 100), r.2,
      r.2.head?.map fun e => e.index,
      r.2.head?.map fun e => e.transaction_id⟩

/-- The two assignment lines of the rechain loop body: store `pH` as the
entry's `previousHash`, then recompute its `currentHash` over the updated
fields. -/
def relinked (pH : Option String) (t : Transaction) : Transaction :=
  let t1 := { t with previousHash := pH }
  { t1 with currentHash := some (compute_hash t1) }

/-- The in-place update loop of `rechain_transactions` over the sorted list.
`skip` counts the positions still to leave untouched (`from_index - i` in the
source); once it reaches 0 every entry is relinked and rehashed. `prev` is the
entry now stored at the preceding index (already updated when that index was
processed); it is `none` exactly at index 0, where the source writes the
genesis sentinel. At a processed index `i > 0` the source reads
`updated_transactions[i-1]["currentHash"]` with bracket indexing: when the
predecessor has no such key, Python raises an uncaught `KeyError` and the
call produces no list; that outcome is modelled as `none`. -/
def rechainLoop (prev : Option Transaction) (skip : Nat) :
    List Transaction → Option (List Transaction)
  | [] => some []
  | t :: rest =>
    match skip with
    | n + 1 => (rechainLoop (some t) n rest).map fun R => t :: R
    | 0 =>
      match prev with
      | none =>
        let t2 := relinked (some GENESIS_HASH) t
        (rechainLoop (some t2) 0 rest).map fun R => t2 :: R
      | some p =>
        match p.currentHash with
        | none => none
        | some h =>
          let t2 := relinked (some h) t
          (rechainLoop (some t2) 0 rest).map fun R => t2 :: R

/-- `SpendWiseBlockchain.rechain_transactions`. `none` models the uncaught
`KeyError` raised when a processed position must read a predecessor that has
no stored `currentHash`; the guard path returns the input list unchanged. -/
def rechain_transactions (transactions : List Transaction) (from_index : Nat) :
    Option (List Transaction) :=
  if transactions.isEmpty || transactions.length ≤ from_index then
    some transactions
  else
    rechainLoop none from_index (sortTs transactions)

/-- One bottom-up step of `generate_merkle_tree`: adjacent pairs are hashed
together; a trailing odd element is hashed with itself. -/
def combinePairs : List String → List String
  | [] => []
  | [x] => [sha256hex (x ++ x)]
  | x :: y :: rest => sha256hex (x ++ y) :: combinePairs rest

theorem length_combinePairs (l : List String) :
    (combinePairs l).length = (l.length + 1) / 2 := by
  induction l using combinePairs.induct with
  | case1 => simp [combinePairs]
  | case2 x => simp [combinePairs]
  | case3 x y rest ih => simp [combinePairs, ih]; omega

/-- The `while len(current_level) > 1` loop of `generate_merkle_tree`,
collecting every level (the source's `tree` list, leaves first). The loop is
fuel-driven so that it is structurally recursive: each iteration at least
halves the level, so `level.length` iterations always suffice and the
out-of-fuel branch is never reached. -/
def buildLevelsAux : Nat → List String → List (List String)
  | 0, level => [level]
  | fuel + 1, level =>
    if level.length ≤ 1 then [level]
    else level :: buildLevelsAux fuel (combinePairs level)

/-- The Merkle levels, leaves first, ending with the root level. -/
def buildLevels (level : List String) : List (List String) :=
  buildLevelsAux level.length level

/-- The result dict of `generate_merkle_tree`. -/
structure MerkleTree where
  root : String
  tree : List (List String)
  transaction_count : Nat
deriving DecidableEq, Repr

/-- `SpendWiseBlockchain.generate_merkle_tree`. Leaves are the stored
`currentHash` values (`tx.get("currentHash", "")`) in input-list order. -/
def generate_merkle_tree (transactions : List Transaction) : MerkleTree :=
  if transactions.isEmpty then
    ⟨sha256hex "empty", [[sha256hex "empty"]], 0⟩
  else
    let leaves := transactions.map fun t => t.currentHash.getD ""
    let levels := buildLevels leaves
    ⟨((levels.getLastD []).headD ""), levels, transactions.length⟩

/-- Inclusive day window of `get_daily_merkle_root`: `end_timestamp` is
`start_timestamp + 86399999` milliseconds (23:59:59.999999, truncated to ms). -/
def inDay (startOfDayMs : Int) (t : Transaction) : Bool :=
  startOfDayMs ≤ t.timestamp && t.timestamp ≤ startOfDayMs + 86399999

/-- The day's transactions, filtered in input-list order (the source does not
re-sort them). -/
def dailyEntries (transactions : List Transaction) (startOfDayMs : Int) : List Transaction :=
  transactions.filter (inDay startOfDayMs)

/-- `SpendWiseBlockchain.get_daily_merkle_root`. The `datetime` arithmetic of
the source (`date.replace(...)`, `.timestamp() * 1000`) is abstracted to the
day's starting epoch millisecond `startOfDayMs`; the window is inclusive on
both ends, exactly as in the source. -/
def get_daily_merkle_root (transactions : List Transaction) (startOfDayMs : Int) : String :=
  (generate_merkle_tree (dailyEntries transactions startOfDayMs)).root

/-- The result dict of `detect_tampering_patterns`. The source's early return
for an empty input omits the `total_issues` key; it is modelled as 0. -/
structure RiskReport where
  suspicious_transactions : List String
  patterns : List String
  risk_score : Nat
  total_issues : Nat
deriving DecidableEq, Repr

/-- Per-transaction flags of the sorted scan in `detect_tampering_patterns`,
in the source's append order: future timestamp, timestamp regression,
unusually large amount, negative amount. `prev` is the preceding transaction
in sorted order (`none` at index 0, where the regression check is skipped). -/
def txFlags (now : Int) (prev : Option Transaction) (t : Transaction) :
    List String × List String :=
  let fut : List String × List String :=
    if now + 60000 < t.timestamp then
      ([t.id], ["Future timestamp detected in transaction " ++ t.id])
    else ([], [])
  let reg : List String × List String :=
    match prev with
    | some p =>
      if t.timestamp < p.timestamp - 300000 then
        ([t.id], ["Timestamp regression detected in transaction " ++ t.id])
      else ([], [])
    | none => ([], [])
  let big : List String × List String :=
    if 10000000 < t.amount then
      ([t.id], ["Unusually large amount detected in transaction " ++ t.id])
    else ([], [])
  let neg : List String × List String :=
    if t.amount < 0 then
      ([t.id], ["Negative amount detected in transaction " ++ t.id])
    else ([], [])
  (fut.1 ++ reg.1 ++ big.1 ++ neg.1, fut.2 ++ reg.2 ++ big.2 ++ neg.2)

/-- The sorted scan loop of `detect_tampering_patterns`. -/
def scanLoop (now : Int) (prev : Option Transaction) :
    List Transaction → List String × List String
  | [] => ([], [])
  | t :: rest =>
    let f := txFlags now prev t
    let r := scanLoop now (some t) rest
    (f.1 ++ r.1, f.2 ++ r.2)

/-- The duplicate-id pass of `detect_tampering_patterns`: iterate the ids in
first-occurrence order (Python dicts preserve insertion order) and flag every
id occurring more than once in the unsorted input. -/
def dupFlags (transactions : List Transaction) : List String × List String :=
  let ids := (transactions.map fun t => t.id).eraseDups
  let dups := ids.filter fun i => 1 < (transactions.map fun t => t.id).count i
  (dups, dups.map fun i => "Duplicate transaction ID detected: " ++ i)

/-- Every id appended to `suspicious_transactions` by
`detect_tampering_patterns`, in append order and with multiplicity; the risk
score is computed from this list before deduplication. -/
def suspiciousRaw (now : Int) (transactions : List Transaction) : List String :=
  (scanLoop now none (sortTs transactions)).1 ++ (dupFlags transactions).1

/-- Every pattern string appended by `detect_tampering_patterns`. -/
def patternsRaw (now : Int) (transactions : List Transaction) : List String :=
  (scanLoop now none (sortTs transactions)).2 ++ (dupFlags transactions).2

/-- `SpendWiseBlockchain.detect_tampering_patterns`. `now` models
`int(datetime.now().timestamp() * 1000)`. The returned id list is
`list(set(suspicious_transactions))`, whose iteration order Python leaves
unspecified; it is modelled as deduplication keeping first occurrences. -/
def detect_tampering_patterns (now : Int) (transactions : List Transaction) : RiskReport :=
  if transactions.isEmpty then
    ⟨[], [], 0, 0⟩
  else
    let suspicious := suspiciousRaw now transactions
    let pats := patternsRaw now transactions
    ⟨suspicious.eraseDups, pats, min 100 (suspicious.length * 20), pats.length⟩

/-- Appending drafts one at a time through `create_new_transaction`, each new
entry chained to the previously returned entry as tail (the first to `none`). -/
def buildChainAux (prev : Option Transaction) : List Transaction → List Transaction
  | [] => []
  | d :: ds =>
    let t := create_new_transaction d prev
    t :: buildChainAux (some t) ds

/-- The chain obtained by appending the drafts in order. -/
def buildChain (drafts : List Transaction) : List Transaction := buildChainAux none drafts

/-! ## Specification-side predicates

These definitions restate, in declarative form, what the spec says the
verifier checks; the theorems below compare them with the embedded source. -/

/-- The two checks `verify_chain_integrity` performs at one position, given
the transaction `prev` stored at the preceding index (`none` at index 0):
hash correctness (I1) and link (I2) or genesis (I3) correctness. -/
def headOk (prev : Option Transaction) (t : Transaction) : Bool :=
  verify_transaction_hash t &&
    match prev with
    | none => t.previousHash == some GENESIS_HASH
    | some p => t.previousHash == p.currentHash

/-- Every position of the list passes its checks, walking left to right. -/
def chainOkB : Option Transaction → List Transaction → Bool
  | _, [] => true
  | prev, t :: rest => headOk prev t && chainOkB (some t) rest

/-- The first `n` positions of the list pass their checks. -/
def chainOkUpto : Option Transaction → Nat → List Transaction → Bool
  | _, 0, _ => true
  | _, _ + 1, [] => true
  | prev, n + 1, t :: rest => headOk prev t && chainOkUpto (some t) n rest

/-- Integrity at position `j` of a sorted list, exactly as the claim states
it: the stored `currentHash` must equal the recomputed hash, and the stored
`previousHash` must equal the genesis sentinel at position 0 and the stored
`currentHash` of the predecessor otherwise. `prev` generalizes the entry
before the list (`none` for the whole chain); out-of-range positions pass. -/
def stepOk (prev : Option Transaction) (l : List Transaction) (j : Nat) : Bool :=
  match l[j]? with
  | none => true
  | some t =>
    verify_transaction_hash t &&
    match j with
    | 0 =>
      (match prev with
       | none => t.previousHash == some GENESIS_HASH
       | some p => t.previousHash == p.currentHash)
    | j' + 1 =>
      match l[j']? with
      | some p => t.previousHash == p.currentHash
      | none => true

/-- Integrity at position `j` of a sorted chain. -/
def posOk (S : List Transaction) (j : Nat) : Bool := stepOk none S j

/-- The claim's reading of invariants I1–I3 over a timestamp-sorted list `S`:
every entry's stored `currentHash` is the recomputed hash, the first entry's
`previousHash` is the genesis sentinel, and every later entry's
`previousHash` is the stored `currentHash` of its immediate predecessor. -/
def specValid (S : List Transaction) : Prop :=
  (∀ (i : Nat) (h : i < S.length), S[i].currentHash = some (compute_hash S[i]))
  ∧ (∀ _h : 0 < S.length, S[0].previousHash = some GENESIS_HASH)
  ∧ (∀ (i : Nat) (h : i + 1 < S.length), S[i + 1].previousHash = S[i].currentHash)

/-- The link condition at the head of the walk, as a proposition. -/
def linkP : Option Transaction → Transaction → Prop
  | none, t => t.previousHash = some GENESIS_HASH
  | some p, t => t.previousHash = p.currentHash

/-- All non-hash fields of two transactions agree (`previousHash` and
`currentHash` are the only fields left free). -/
def sameNonHash (a b : Transaction) : Prop :=
  a.id = b.id ∧ a.amount = b.amount ∧ a.currency = b.currency ∧
  a.categoryId = b.categoryId ∧ a.timestamp = b.timestamp ∧
  a.billDueAt = b.billDueAt ∧ a.nonce = b.nonce ∧ a.version = b.version

/-! ## Basic lemmas about hashing and sorting -/

theorem compute_hash_set_currentHash (t : Transaction) (x : Option String) :
    compute_hash { t with currentHash := x } = compute_hash t := rfl

theorem sameNonHash_refl (t : Transaction) : sameNonHash t t :=
  ⟨rfl, rfl, rfl, rfl, rfl, rfl, rfl, rfl⟩

theorem sortTs_perm (l : List Transaction) : List.Perm (sortTs l) l :=
  List.perm_insertionSort tsLE l

theorem length_sortTs (l : List Transaction) : (sortTs l).length = l.length :=
  (sortTs_perm l).length_eq

theorem sortTs_sorted (l : List Transaction) : List.Sorted tsLE (sortTs l) :=
  List.sorted_insertionSort tsLE l

theorem sortTs_eq_self {l : List Transaction} (h : List.Sorted tsLE l) : sortTs l = l :=
  h.insertionSort_eq

/-- Sortedness only depends on the timestamps. -/
theorem sorted_iff_mapTs (l : List Transaction) :
    List.Sorted tsLE l ↔ List.Sorted (· ≤ ·) (l.map fun t => t.timestamp) := by
  unfold List.Sorted
  rw [List.pairwise_map]
  rfl

theorem headOk_iff (prev : Option Transaction) (t : Transaction) :
    headOk prev t = true ↔ (t.currentHash = some (compute_hash t) ∧ linkP prev t) := by
  cases prev <;>
    simp [headOk, verify_transaction_hash, linkP, Bool.and_eq_true]

/-! ## The verification walk -/

theorem verifyLoop_cons_ok (prev : Option Transaction) (t : Transaction)
    (rest : List Transaction) (i : Nat) (h : headOk prev t = true) :
    verifyLoop prev i (t :: rest) =
      ((verifyLoop (some t) (i + 1) rest).1 + 1, (verifyLoop (some t) (i + 1) rest).2) := by
  rw [headOk_iff] at h
  obtain ⟨hhash, hlink⟩ := h
  have hv : verify_transaction_hash t = true := by
    simp [verify_transaction_hash, hhash]
  cases prev with
  | none =>
    simp only [linkP] at hlink
    simp [verifyLoop, hv, hlink]
  | some p =>
    simp only [linkP] at hlink
    simp [verifyLoop, hv, hlink]

theorem verifyLoop_cons_bad (prev : Option Transaction) (t : Transaction)
    (rest : List Transaction) (i : Nat) (h : headOk prev t = false) :
    ∃ e : ChainError, verifyLoop prev i (t :: rest) = (0, [e]) ∧
      e.index = i ∧ e.transaction_id = t.id := by
  by_cases hv : verify_transaction_hash t = false
  · exact ⟨⟨i, t.id, "Invalid hash computation", some (compute_hash t), t.currentHash⟩,
      by simp [verifyLoop, hv], rfl, rfl⟩
  · rw [Bool.not_eq_false] at hv
    simp only [headOk, hv, Bool.true_and] at h
    cases prev with
    | none =>
      have hg : t.previousHash ≠ some GENESIS_HASH := by
        intro hc
        simp [hc] at h
      exact ⟨⟨i, t.id, "Invalid genesis previousHash", some GENESIS_HASH, t.previousHash⟩,
        by simp [verifyLoop, hv, hg], rfl, rfl⟩
    | some p =>
      have hg : t.previousHash ≠ p.currentHash := by
        intro hc
        simp [hc] at h
      exact ⟨⟨i, t.id, "Broken chain link", p.currentHash, t.previousHash⟩,
        by simp [verifyLoop, hv, hg], rfl, rfl⟩

theorem verifyLoop_of_chainOk :
    ∀ (l : List Transaction) (prev : Option Transaction) (i : Nat),
      chainOkB prev l = true → verifyLoop prev i l = (l.length, []) := by
  intro l
  induction l with
  | nil => intro prev i _; rfl
  | cons t rest ih =>
    intro prev i h
    rw [chainOkB, Bool.and_eq_true] at h
    rw [verifyLoop_cons_ok prev t rest i h.1, ih (some t) (i + 1) h.2]
    simp

theorem verifyLoop_fst_le (l : List Transaction) :
    ∀ (prev : Option Transaction) (i : Nat), (verifyLoop prev i l).1 ≤ l.length := by
  induction l with
  | nil => intro prev i; simp [verifyLoop]
  | cons t rest ih =>
    intro prev i
    cases hh : headOk prev t with
    | true =>
      rw [verifyLoop_cons_ok prev t rest i hh]
      have := ih (some t) (i + 1)
      simp
      omega
    | false =>
      obtain ⟨e, he, -, -⟩ := verifyLoop_cons_bad prev t rest i hh
      simp [he]

theorem verifyLoop_fst_eq_iff (l : List Transaction) :
    ∀ (prev : Option Transaction) (i : Nat),
      ((verifyLoop prev i l).1 = l.length ↔ chainOkB prev l = true) := by
  induction l with
  | nil => intro prev i; simp [verifyLoop, chainOkB]
  | cons t rest ih =>
    intro prev i
    cases hh : headOk prev t with
    | true =>
      rw [verifyLoop_cons_ok prev t rest i hh]
      rw [chainOkB, hh, Bool.true_and]
      simpa using ih (some t) (i + 1)
    | false =>
      obtain ⟨e, he, -, -⟩ := verifyLoop_cons_bad prev t rest i hh
      rw [chainOkB, hh, Bool.false_and]
      simp [he]

theorem verifyLoop_snd_nil_iff (l : List Transaction) :
    ∀ (prev : Option Transaction) (i : Nat),
      ((verifyLoop prev i l).2 = [] ↔ chainOkB prev l = true) := by
  induction l with
  | nil => intro prev i; simp [verifyLoop, chainOkB]
  | cons t rest ih =>
    intro prev i
    cases hh : headOk prev t with
    | true =>
      rw [verifyLoop_cons_ok prev t rest i hh]
      rw [chainOkB, hh, Bool.true_and]
      simpa using ih (some t) (i + 1)
    | false =>
      obtain ⟨e, he, -, -⟩ := verifyLoop_cons_bad prev t rest i hh
      rw [chainOkB, hh, Bool.false_and]
      simp [he]

theorem stepOk_cons_succ (prev : Option Transaction) (t : Transaction)
    (rest : List Transaction) (j : Nat) :
    stepOk prev (t :: rest) (j + 1) = stepOk (some t) rest j := by
  cases j with
  | zero =>
    simp [stepOk]
  | succ j' =>
    simp [stepOk]

theorem stepOk_cons_zero (prev : Option Transaction) (t : Transaction)
    (rest : List Transaction) :
    stepOk prev (t :: rest) 0 = headOk prev t := by
  cases prev <;> simp [stepOk, headOk]

theorem chainOkB_iff_forall_stepOk (l : List Transaction) :
    ∀ (prev : Option Transaction),
      (chainOkB prev l = true ↔ ∀ j, stepOk prev l j = true) := by
  induction l with
  | nil =>
    intro prev
    simp [chainOkB, stepOk]
  | cons t rest ih =>
    intro prev
    rw [chainOkB, Bool.and_eq_true, ih (some t)]
    constructor
    · rintro ⟨h1, h2⟩ j
      cases j with
      | zero => rw [stepOk_cons_zero]; exact h1
      | succ j' => rw [stepOk_cons_succ]; exact h2 j'
    · intro h
      constructor
      · rw [← stepOk_cons_zero prev t rest]; exact h 0
      · intro j; rw [← stepOk_cons_succ prev t rest j]; exact h (j + 1)

theorem verifyLoop_invalid :
    ∀ (l : List Transaction) (prev : Option Transaction) (i : Nat),
      (verifyLoop prev i l).2 ≠ [] →
      ∃ e : ChainError, (verifyLoop prev i l).2 = [e] ∧
        e.index = i + (verifyLoop prev i l).1 ∧
        (verifyLoop prev i l).1 < l.length ∧
        stepOk prev l (verifyLoop prev i l).1 = false ∧
        (∀ j, j < (verifyLoop prev i l).1 → stepOk prev l j = true) ∧
        (l[(verifyLoop prev i l).1]?).map (fun t => t.id) = some e.transaction_id := by
  intro l
  induction l with
  | nil => intro prev i h; simp [verifyLoop] at h
  | cons t rest ih =>
    intro prev i h
    cases hh : headOk prev t with
    | false =>
      obtain ⟨e, he, hei, hid⟩ := verifyLoop_cons_bad prev t rest i hh
      refine ⟨e, by simp [he], by simp [he, hei], by simp [he], ?_, ?_, ?_⟩
      · rw [he]
        simpa [stepOk_cons_zero] using hh
      · intro j hj
        rw [he] at hj
        simp at hj
      · simp [he, hid]
    | true =>
      rw [verifyLoop_cons_ok prev t rest i hh] at h ⊢
      simp only at h ⊢
      have h2 : (verifyLoop (some t) (i + 1) rest).2 ≠ [] := h
      obtain ⟨e, he, hei, hlt, hbad, hpre, hid⟩ := ih (some t) (i + 1) h2
      refine ⟨e, he, by omega, by simp; omega, ?_, ?_, ?_⟩
      · rw [stepOk_cons_succ]
        exact hbad
      · intro j hj
        cases j with
        | zero => rw [stepOk_cons_zero]; exact hh
        | succ j' =>
          rw [stepOk_cons_succ]
          exact hpre j' (by omega)
      · simpa using hid

theorem set_getElem_eq {α : Type _} (l : List α) (k : Nat) (h : k < l.length) :
    l.set k l[k] = l := by
  apply List.ext_getElem
  · simp
  · intro i h1 h2
    rw [List.getElem_set]
    split
    · rename_i he
      simp [he]
    · rfl

theorem chainOkB_iff_indexed (S : List Transaction) :
    ∀ (prev : Option Transaction),
      chainOkB prev S = true ↔
        ((∀ (i : Nat) (h : i < S.length), S[i].currentHash = some (compute_hash S[i]))
         ∧ (∀ _h : 0 < S.length, linkP prev S[0])
         ∧ (∀ (i : Nat) (h : i + 1 < S.length), S[i + 1].previousHash = S[i].currentHash)) := by
  induction S with
  | nil =>
    intro prev
    simp [chainOkB]
  | cons t rest ih =>
    intro prev
    rw [chainOkB, Bool.and_eq_true, headOk_iff, ih (some t)]
    constructor
    · rintro ⟨⟨hhash, hlink⟩, hrest1, hrest2, hrest3⟩
      refine ⟨?_, ?_, ?_⟩
      · intro i h
        cases i with
        | zero => simpa using hhash
        | succ j => simpa using hrest1 j (by simpa using h)
      · intro _h0
        simpa using hlink
      · intro i h
        cases i with
        | zero =>
          have h0 : 0 < rest.length := by simp at h; omega
          have := hrest2 h0
          simpa [linkP] using this
        | succ j =>
          have := hrest3 j (by simp at h; omega)
          simpa using this
    · rintro ⟨h1, h2, h3⟩
      refine ⟨⟨?_, ?_⟩, ?_, ?_, ?_⟩
      · simpa using h1 0 (by simp)
      · simpa using h2 (by simp)
      · intro i h
        simpa using h1 (i + 1) (by simp; omega)
      · intro h0
        have := h3 0 (by simp; omega)
        simpa [linkP] using this
      · intro i h
        have := h3 (i + 1) (by simp; omega)
        simpa using this

theorem specValid_iff_chainOk (S : List Transaction) :
    specValid S ↔ chainOkB none S = true := by
  rw [chainOkB_iff_indexed S none]
  unfold specValid
  simp only [linkP]

theorem verify_eq_of_ne_nil (txs : List Transaction) (h : txs ≠ []) :
    verify_chain_integrity txs =
      ⟨(verifyLoop none 0 (sortTs txs)).1 == txs.length, txs.length,
        (verifyLoop none 0 (sortTs txs)).1,
        round2 (((verifyLoop none 0 (sortTs txs)).1 : ℚ) / (txs.length : ℚ) * 100),
        (verifyLoop none 0 (sortTs txs)).2,
        (verifyLoop none 0 (sortTs txs)).2.head?.map fun e => e.index,
        (verifyLoop none 0 (sortTs txs)).2.head?.map fun e => e.transaction_id⟩ := by
  rw [verify_chain_integrity, if_neg (by simpa [List.isEmpty_iff] using h)]

theorem verify_valid_iff (txs : List Transaction) :
    (verify_chain_integrity txs).is_valid = true ↔ chainOkB none (sortTs txs) = true := by
  by_cases h : txs = []
  · subst h
    simp [verify_chain_integrity, sortTs, List.insertionSort, chainOkB]
  · rw [verify_eq_of_ne_nil txs h]
    show ((verifyLoop none 0 (sortTs txs)).1 == txs.length) = true ↔ _
    rw [beq_iff_eq, ← length_sortTs txs]
    exact verifyLoop_fst_eq_iff (sortTs txs) none 0

/-! ## The rechain walk -/

theorem relinked_previousHash (pH : Option String) (t : Transaction) :
    (relinked pH t).previousHash = pH := rfl

theorem relinked_currentHash (pH : Option String) (t : Transaction) :
    (relinked pH t).currentHash = some (compute_hash (relinked pH t)) := rfl

theorem relinked_sameNonHash (pH : Option String) (t : Transaction) :
    sameNonHash (relinked pH t) t :=
  ⟨rfl, rfl, rfl, rfl, rfl, rfl, rfl, rfl⟩

theorem rechainLoop_succ (prev : Option Transaction) (n : Nat) (t : Transaction)
    (rest : List Transaction) :
    rechainLoop prev (n + 1) (t :: rest) =
      (rechainLoop (some t) n rest).map (fun R => t :: R) := rfl

theorem rechainLoop_zero_genesis (t : Transaction) (rest : List Transaction) :
    rechainLoop none 0 (t :: rest) =
      (rechainLoop (some (relinked (some GENESIS_HASH) t)) 0 rest).map
        (fun R => relinked (some GENESIS_HASH) t :: R) := rfl

theorem rechainLoop_zero_read (p t : Transaction) (rest : List Transaction)
    (h : String) (hp : p.currentHash = some h) :
    rechainLoop (some p) 0 (t :: rest) =
      (rechainLoop (some (relinked (some h) t)) 0 rest).map
        (fun R => relinked (some h) t :: R) := by
  simp only [rechainLoop, hp]

theorem rechainLoop_zero_keyError (p t : Transaction) (rest : List Transaction)
    (hp : p.currentHash = none) :
    rechainLoop (some p) 0 (t :: rest) = none := by
  simp only [rechainLoop, hp]

theorem rechainLoop_succ_some (prev : Option Transaction) (n : Nat) (t : Transaction)
    (rest : List Transaction) (R : List Transaction)
    (h : rechainLoop prev (n + 1) (t :: rest) = some R) :
    ∃ R2, rechainLoop (some t) n rest = some R2 ∧ R = t :: R2 := by
  rw [rechainLoop_succ, Option.map_eq_some'] at h
  obtain ⟨R2, h2, hR⟩ := h
  exact ⟨R2, h2, hR.symm⟩

theorem rechainLoop_zero_some (prev : Option Transaction) (t : Transaction)
    (rest : List Transaction) (R : List Transaction)
    (h : rechainLoop prev 0 (t :: rest) = some R) :
    ∃ t2 R2, rechainLoop (some t2) 0 rest = some R2 ∧ R = t2 :: R2 ∧
      t2.previousHash = (match prev with
        | none => some GENESIS_HASH
        | some p => p.currentHash) ∧
      t2.currentHash = some (compute_hash t2) ∧
      sameNonHash t2 t := by
  cases prev with
  | none =>
    rw [rechainLoop_zero_genesis, Option.map_eq_some'] at h
    obtain ⟨R2, h2, hR⟩ := h
    exact ⟨relinked (some GENESIS_HASH) t, R2, h2, hR.symm, rfl, rfl,
      relinked_sameNonHash _ _⟩
  | some p =>
    cases hp : p.currentHash with
    | none =>
      rw [rechainLoop_zero_keyError p t rest hp] at h
      exact absurd h (by simp)
    | some hs =>
      rw [rechainLoop_zero_read p t rest hs hp, Option.map_eq_some'] at h
      obtain ⟨R2, h2, hR⟩ := h
      refine ⟨relinked (some hs) t, R2, h2, hR.symm, ?_, rfl, relinked_sameNonHash _ _⟩
      show (relinked (some hs) t).previousHash = p.currentHash
      rw [relinked_previousHash, hp]

theorem rechainLoop_length (l : List Transaction) :
    ∀ (prev : Option Transaction) (skip : Nat) (R : List Transaction),
      rechainLoop prev skip l = some R → R.length = l.length := by
  induction l with
  | nil =>
    intro prev skip R h
    rw [rechainLoop, Option.some.injEq] at h
    rw [← h]
  | cons t rest ih =>
    intro prev skip R h
    cases skip with
    | succ n =>
      obtain ⟨R2, h2, hR⟩ := rechainLoop_succ_some prev n t rest R h
      subst hR
      simp [ih (some t) n R2 h2]
    | zero =>
      obtain ⟨t2, R2, h2, hR, -, -, -⟩ := rechainLoop_zero_some prev t rest R h
      subst hR
      simp [ih _ 0 R2 h2]

theorem rechainLoop_map_ts (l : List Transaction) :
    ∀ (prev : Option Transaction) (skip : Nat) (R : List Transaction),
      rechainLoop prev skip l = some R →
      R.map (fun t => t.timestamp) = l.map (fun t => t.timestamp) := by
  induction l with
  | nil =>
    intro prev skip R h
    rw [rechainLoop, Option.some.injEq] at h
    rw [← h]
  | cons t rest ih =>
    intro prev skip R h
    cases skip with
    | succ n =>
      obtain ⟨R2, h2, hR⟩ := rechainLoop_succ_some prev n t rest R h
      subst hR
      simp [ih (some t) n R2 h2]
    | zero =>
      obtain ⟨t2, R2, h2, hR, -, -, hcore⟩ := rechainLoop_zero_some prev t rest R h
      subst hR
      have hts : t2.timestamp = t.timestamp := hcore.2.2.2.2.1
      simp [ih _ 0 R2 h2, hts]

theorem rechainLoop_getElem_lt (l : List Transaction) :
    ∀ (prev : Option Transaction) (skip i : Nat) (R : List Transaction),
      rechainLoop prev skip l = some R → i < skip → R[i]? = l[i]? := by
  induction l with
  | nil =>
    intro prev skip i R h _
    rw [rechainLoop, Option.some.injEq] at h
    rw [← h]
  | cons t rest ih =>
    intro prev skip i R h hi
    cases skip with
    | zero => omega
    | succ n =>
      obtain ⟨R2, h2, hR⟩ := rechainLoop_succ_some prev n t rest R h
      subst hR
      cases i with
      | zero => simp
      | succ j => simp [ih (some t) n j R2 h2 (by omega)]

theorem rechainLoop_sameNonHash (l : List Transaction) :
    ∀ (prev : Option Transaction) (skip i : Nat) (R : List Transaction)
      (a b : Transaction), rechainLoop prev skip l = some R →
      R[i]? = some a → l[i]? = some b → sameNonHash a b := by
  induction l with
  | nil =>
    intro prev skip i R a b h ha _
    rw [rechainLoop, Option.some.injEq] at h
    rw [← h] at ha
    simp at ha
  | cons t rest ih =>
    intro prev skip i R a b h ha hb
    cases skip with
    | succ n =>
      obtain ⟨R2, h2, hR⟩ := rechainLoop_succ_some prev n t rest R h
      subst hR
      cases i with
      | zero =>
        rw [List.getElem?_cons_zero] at ha hb
        injection ha with ha2
        injection hb with hb2
        rw [← ha2, ← hb2]
        exact sameNonHash_refl t
      | succ j =>
        rw [List.getElem?_cons_succ] at ha hb
        exact ih (some t) n j R2 a b h2 ha hb
    | zero =>
      obtain ⟨t2, R2, h2, hR, -, -, hcore⟩ := rechainLoop_zero_some prev t rest R h
      subst hR
      cases i with
      | zero =>
        rw [List.getElem?_cons_zero] at ha hb
        injection ha with ha2
        injection hb with hb2
        rw [← ha2, ← hb2]
        exact hcore
      | succ j =>
        rw [List.getElem?_cons_succ] at ha hb
        exact ih _ 0 j R2 a b h2 ha hb

theorem chainOkUpto_of_chainOkB (l : List Transaction) :
    ∀ (prev : Option Transaction) (n : Nat),
      chainOkB prev l = true → chainOkUpto prev n l = true := by
  induction l with
  | nil => intro prev n _; cases n <;> rfl
  | cons t rest ih =>
    intro prev n h
    cases n with
    | zero => rfl
    | succ m =>
      rw [chainOkB, Bool.and_eq_true] at h
      simp [chainOkUpto, h.1, ih (some t) m h.2]

theorem chainOkUpto_set (l : List Transaction) :
    ∀ (prev : Option Transaction) (n k : Nat) (e : Transaction), n ≤ k →
      chainOkUpto prev n (l.set k e) = chainOkUpto prev n l := by
  induction l with
  | nil => intro prev n k e _; simp
  | cons t rest ih =>
    intro prev n k e hnk
    cases n with
    | zero => rfl
    | succ m =>
      cases k with
      | zero => omega
      | succ q =>
        rw [List.set_cons_succ]
        simp [chainOkUpto, ih (some t) m q e (by omega)]

/-- The predecessor carried into a processed position can be read without a
`KeyError`: either there is none (position 0, which writes the genesis
sentinel) or it carries a stored `currentHash`. -/
def prevOk : Option Transaction → Prop
  | none => True
  | some p => p.currentHash.isSome = true

theorem rechainLoop_some_of_upto (l : List Transaction) :
    ∀ (prev : Option Transaction) (skip : Nat),
      chainOkUpto prev skip l = true → prevOk prev →
      ∃ R, rechainLoop prev skip l = some R ∧ chainOkB prev R = true := by
  induction l with
  | nil => intro prev skip _ _; exact ⟨[], rfl, rfl⟩
  | cons t rest ih =>
    intro prev skip hupto hprev
    cases skip with
    | succ n =>
      rw [chainOkUpto, Bool.and_eq_true] at hupto
      have hhead := hupto.1
      have hth : prevOk (some t) := by
        show t.currentHash.isSome = true
        rw [headOk_iff] at hhead
        rw [hhead.1]
        rfl
      obtain ⟨R2, h2, hok2⟩ := ih (some t) n hupto.2 hth
      refine ⟨t :: R2, ?_, ?_⟩
      · rw [rechainLoop_succ, h2]
        rfl
      · rw [chainOkB, Bool.and_eq_true]
        rw [headOk_iff] at hupto
        exact ⟨hhead, hok2⟩
    | zero =>
      cases prev with
      | none =>
        have hth : prevOk (some (relinked (some GENESIS_HASH) t)) := rfl
        obtain ⟨R2, h2, hok2⟩ := ih (some (relinked (some GENESIS_HASH) t)) 0 rfl hth
        refine ⟨relinked (some GENESIS_HASH) t :: R2, ?_, ?_⟩
        · rw [rechainLoop_zero_genesis, h2]
          rfl
        · rw [chainOkB, Bool.and_eq_true]
          refine ⟨?_, hok2⟩
          rw [headOk_iff]
          exact ⟨rfl, rfl⟩
      | some p =>
        obtain ⟨hs, hp⟩ := Option.isSome_iff_exists.mp hprev
        have hth : prevOk (some (relinked (some hs) t)) := rfl
        obtain ⟨R2, h2, hok2⟩ := ih (some (relinked (some hs) t)) 0 rfl hth
        refine ⟨relinked (some hs) t :: R2, ?_, ?_⟩
        · rw [rechainLoop_zero_read p t rest hs hp, h2]
          rfl
        · rw [chainOkB, Bool.and_eq_true]
          refine ⟨?_, hok2⟩
          rw [headOk_iff]
          refine ⟨rfl, ?_⟩
          show (relinked (some hs) t).previousHash = p.currentHash
          rw [relinked_previousHash, hp]

/-! ## Chains built by append, and sortedness -/

/-- Strict timestamp order (for drafts appended in increasing order). -/
def tsLT (a b : Transaction) : Prop := a.timestamp < b.timestamp

instance : IsTrans Transaction tsLT := ⟨fun _ _ _ hab hbc => lt_trans hab hbc⟩

theorem sorted_set_ts_eq (S : List Transaction) (k : Nat) (e : Transaction)
    (hk : k < S.length) (hts : e.timestamp = S[k].timestamp)
    (hs : List.Sorted tsLE S) : List.Sorted tsLE (S.set k e) := by
  rw [sorted_iff_mapTs] at hs ⊢
  rw [List.map_set, hts]
  have hk2 : k < (S.map fun t => t.timestamp).length := by simpa using hk
  have hset := set_getElem_eq (S.map fun t => t.timestamp) k hk2
  rw [List.getElem_map] at hset
  rw [hset]
  exact hs

theorem create_new_ts (d : Transaction) (prev : Option Transaction) :
    (create_new_transaction d prev).timestamp = d.timestamp := by
  cases prev <;>
    simp [create_new_transaction, create_genesis_transaction, create_chained_transaction]

theorem buildChainAux_map_ts (ds : List Transaction) :
    ∀ (prev : Option Transaction),
      (buildChainAux prev ds).map (fun t => t.timestamp) =
        ds.map (fun t => t.timestamp) := by
  induction ds with
  | nil => intro prev; rfl
  | cons d rest ih =>
    intro prev
    simp [buildChainAux, create_new_ts, ih]

theorem length_buildChainAux (ds : List Transaction) (prev : Option Transaction) :
    (buildChainAux prev ds).length = ds.length := by
  have := congrArg List.length (buildChainAux_map_ts ds prev)
  simpa using this

theorem chainOk_buildChainAux (ds : List Transaction) :
    ∀ (prev : Option Transaction), (∀ p, prev = some p → p.currentHash.isSome) →
      chainOkB prev (buildChainAux prev ds) = true := by
  induction ds with
  | nil => intro prev _; rfl
  | cons d rest ih =>
    intro prev hp
    cases prev with
    | none =>
      simp only [buildChainAux, create_new_transaction]
      rw [chainOkB, Bool.and_eq_true]
      constructor
      · rw [headOk_iff]
        exact ⟨rfl, rfl⟩
      · apply ih
        intro p hp2
        injection hp2 with hpe
        rw [← hpe]
        rfl
    | some q =>
      have hq := hp q rfl
      rw [Option.isSome_iff_exists] at hq
      obtain ⟨v, hv⟩ := hq
      simp only [buildChainAux, create_new_transaction]
      rw [chainOkB, Bool.and_eq_true]
      constructor
      · rw [headOk_iff]
        refine ⟨rfl, ?_⟩
        show (create_chained_transaction d q).previousHash = q.currentHash
        simp [create_chained_transaction, hv]
      · apply ih
        intro p hp2
        injection hp2 with hpe
        rw [← hpe]
        rfl

theorem sorted_buildChain (drafts : List Transaction) (h : List.Chain' tsLT drafts) :
    List.Sorted tsLE (buildChain drafts) := by
  rw [sorted_iff_mapTs, buildChain, buildChainAux_map_ts]
  rw [← sorted_iff_mapTs]
  have hp : List.Pairwise tsLT drafts := List.chain'_iff_pairwise.mp h
  exact hp.imp (fun hab => le_of_lt hab)

/-! ## Merkle helpers -/

theorem buildLevelsAux_headD (fuel : Nat) (l : List String) :
    (buildLevelsAux fuel l).headD [] = l := by
  cases fuel with
  | zero => rfl
  | succ f =>
    rw [buildLevelsAux]
    split <;> simp

theorem buildLevels_headD (l : List String) : (buildLevels l).headD [] = l :=
  buildLevelsAux_headD l.length l

theorem buildLevels_single (x : String) : buildLevels [x] = [[x]] := by
  rfl

theorem generate_merkle_tree_single (t : Transaction) :
    generate_merkle_tree [t] =
      ⟨t.currentHash.getD "", [[t.currentHash.getD ""]], 1⟩ := by
  rw [generate_merkle_tree]
  simp [buildLevels_single]

/-! ## Positional description of the rechain walk -/

theorem rechainLoop_hash (l : List Transaction) :
    ∀ (prev : Option Transaction) (skip i : Nat) (R : List Transaction)
      (u : Transaction), rechainLoop prev skip l = some R → skip ≤ i →
      R[i]? = some u → u.currentHash = some (compute_hash u) := by
  induction l with
  | nil =>
    intro prev skip i R u h _ hu
    rw [rechainLoop, Option.some.injEq] at h
    rw [← h] at hu
    simp at hu
  | cons t rest ih =>
    intro prev skip i R u h hs hu
    cases skip with
    | succ n =>
      obtain ⟨R2, h2, hR⟩ := rechainLoop_succ_some prev n t rest R h
      subst hR
      cases i with
      | zero => omega
      | succ j =>
        rw [List.getElem?_cons_succ] at hu
        exact ih (some t) n j R2 u h2 (by omega) hu
    | zero =>
      obtain ⟨t2, R2, h2, hR, -, hhash, -⟩ := rechainLoop_zero_some prev t rest R h
      subst hR
      cases i with
      | zero =>
        rw [List.getElem?_cons_zero] at hu
        injection hu with hu2
        rw [← hu2]
        exact hhash
      | succ j =>
        rw [List.getElem?_cons_succ] at hu
        exact ih _ 0 j R2 u h2 (by omega) hu

theorem rechainLoop_link (l : List Transaction) :
    ∀ (prev : Option Transaction) (skip i : Nat) (R : List Transaction),
      rechainLoop prev skip l = some R → skip ≤ i + 1 → i + 1 < l.length →
      (R[i + 1]?).map (fun t => t.previousHash) =
        (R[i]?).map (fun t => t.currentHash) := by
  induction l with
  | nil => intro prev skip i R _ _ hlen; simp at hlen
  | cons r rest ih =>
    intro prev skip i R h hs hlen
    cases skip with
    | succ n =>
      obtain ⟨R2, h2, hR⟩ := rechainLoop_succ_some prev n r rest R h
      subst hR
      cases i with
      | zero =>
        have hn : n = 0 := by omega
        subst hn
        cases rest with
        | nil => simp at hlen
        | cons r1 rest1 =>
          obtain ⟨r3, R3, h3, hR2, hprev3, -, -⟩ :=
            rechainLoop_zero_some (some r) r1 rest1 R2 h2
          subst hR2
          simp [hprev3]
      | succ j =>
        simp only [List.getElem?_cons_succ]
        exact ih (some r) n j R2 h2 (by omega) (by simp at hlen; omega)
    | zero =>
      obtain ⟨r2, R2, h2, hR, -, -, -⟩ := rechainLoop_zero_some prev r rest R h
      subst hR
      cases i with
      | zero =>
        cases rest with
        | nil => simp at hlen
        | cons r1 rest1 =>
          obtain ⟨r3, R3, h3, hR2, hprev3, -, -⟩ :=
            rechainLoop_zero_some (some r2) r1 rest1 R2 h2
          subst hR2
          simp [hprev3]
      | succ j =>
        simp only [List.getElem?_cons_succ]
        exact ih _ 0 j R2 h2 (by omega) (by simp at hlen; omega)

/-- Guard unfolding for `rechain_transactions` with an in-range index. -/
theorem rechain_unfold (txs : List Transaction) (k : Nat) (hk : k < txs.length) :
    rechain_transactions txs k = rechainLoop none k (sortTs txs) := by
  rw [rechain_transactions, if_neg]
  simp only [Bool.or_eq_true, decide_eq_true_eq, List.isEmpty_iff]
  rintro (hc | hc)
  · subst hc; simp at hk
  · omega

/-! ## Concrete fixtures used by witnesses and counterexamples -/

/-- Draft of the first appended entry. -/
def txA : Transaction := ⟨"a1", 100, "INR", "food", 1000, none, none, none, 0, 1⟩

/-- Draft of the second appended entry. -/
def txB : Transaction := ⟨"b2", 5000, "INR", "salary", 2000, none, none, none, 0, 1⟩

/-- Genesis entry built from `txA`. -/
def gA : Transaction := create_genesis_transaction txA

/-- Entry chained onto `gA`, built from `txB`. -/
def cB : Transaction := create_chained_transaction txB gA

/-- `cB` after a single-field timestamp edit that moves it before `gA`. -/
def cBts : Transaction := { cB with timestamp := 500 }

/-- `cB` after a single-field amount edit (timestamp unchanged). -/
def cBamt : Transaction := { cB with amount := 999 }

/-- An entry whose stored `currentHash` is missing, so verification fails. -/
def tx6 : Transaction := ⟨"w6", 1, "INR", "x", 5, none, none, none, 0, 1⟩

/-- Middle entry of the three-entry score counterexample (no stored hash). -/
def bad6 : Transaction := ⟨"bad", 2, "INR", "y", 2000, none, none, none, 0, 1⟩

/-- Last entry of the three-entry score counterexample. -/
def tx6c : Transaction := ⟨"c3", 3, "INR", "z", 3000, none, none, none, 0, 1⟩

/-- Same-day entry with stored hash "aa". -/
def mk4a : Transaction := ⟨"a", 1, "INR", "x", 10, none, none, some "aa", 0, 1⟩

/-- Same-day entry with stored hash "bb". -/
def mk4b : Transaction := ⟨"b", 2, "INR", "y", 20, none, none, some "bb", 0, 1⟩

/-- An entry whose timestamp lies before the queried day. -/
def out7 : Transaction := ⟨"o", 1, "INR", "x", -5, none, none, some "zz", 0, 1⟩

/-- An entry inside the queried day with stored hash "leafhash". -/
def in9 : Transaction := ⟨"i", 1, "INR", "x", 100, none, none, some "leafhash", 0, 1⟩

/-- An entry both negative in amount and far in the future: flagged twice. -/
def tx8 : Transaction := ⟨"a", -5, "INR", "x", 2000000000000, none, none, none, 0, 1⟩

/-- A malformed chain tail: its `currentHash` key is missing. -/
def prev10 : Transaction := ⟨"p", 1, "INR", "x", 1, none, some "beef", none, 0, 1⟩

/-! ## Claim theorems -/

/-- C1: for every list of entries, `verify_chain_integrity` reports
`is_valid = true` if and only if, in timestamp-ascending order, every entry's
stored `currentHash` equals the recomputed hash (I1), the first entry's
`previousHash` is the genesis sentinel (I3), and every later entry's
`previousHash` equals the stored `currentHash` of its immediate predecessor
(I2); and for the empty list it reports valid with 0 entries checked. -/
theorem verify_valid_iff_invariants :
    (∀ txs : List Transaction,
      (verify_chain_integrity txs).is_valid = true ↔ specValid (sortTs txs)) ∧
    (verify_chain_integrity []).is_valid = true ∧
    (verify_chain_integrity []).verified_count = 0 := by
  refine ⟨fun txs => ?_, rfl, rfl⟩
  rw [verify_valid_iff txs, specValid_iff_chainOk]

/-- C1 witness: the invariant predicate holds of a concrete valid two-entry
chain, obtained through the equivalence from a concrete verifier run. -/
theorem verify_valid_iff_invariants_witness : specValid (sortTs [gA, cB]) :=
  (verify_valid_iff_invariants.1 [gA, cB]).mp (by decide)

/-- C2: appending drafts one at a time in strictly increasing timestamp order
through `create_new_transaction` (genesis first, then each entry chained to
the previously returned tail) yields a list on which `verify_chain_integrity`
reports valid and counts every entry as verified. -/
theorem append_then_verify_valid (drafts : List Transaction)
    (h : List.Chain' tsLT drafts) :
    (verify_chain_integrity (buildChain drafts)).is_valid = true ∧
    (verify_chain_integrity (buildChain drafts)).verified_count = drafts.length := by
  have hok : chainOkB none (buildChain drafts) = true :=
    chainOk_buildChainAux drafts none (fun p hp => Option.noConfusion hp)
  have hsorted := sorted_buildChain drafts h
  have hsort_eq : sortTs (buildChain drafts) = buildChain drafts := sortTs_eq_self hsorted
  have hlen : (buildChain drafts).length = drafts.length := length_buildChainAux drafts none
  constructor
  · rw [verify_valid_iff, hsort_eq]
    exact hok
  · by_cases hd : buildChain drafts = []
    · rw [hd]
      rw [hd] at hlen
      simp only [List.length_nil] at hlen
      rw [← hlen]
      rfl
    · rw [verify_eq_of_ne_nil _ hd]
      show (verifyLoop none 0 (sortTs (buildChain drafts))).1 = drafts.length
      rw [hsort_eq, verifyLoop_of_chainOk _ none 0 hok]
      exact hlen

/-- C2 witness: two concrete drafts in strictly increasing timestamp order
round-trip through append and verify. -/
theorem append_then_verify_valid_witness :
    List.Chain' tsLT [txA, txB] ∧
    (verify_chain_integrity (buildChain [txA, txB])).is_valid = true ∧
    (verify_chain_integrity (buildChain [txA, txB])).verified_count = 2 := by
  have hc : List.Chain' tsLT [txA, txB] := by
    simp [List.chain'_cons, List.chain'_singleton, tsLT]
    decide
  exact ⟨hc, (append_then_verify_valid [txA, txB] hc).1,
    (append_then_verify_valid [txA, txB] hc).2⟩

/-- C3 counterexample: on the concrete valid chain `[gA, cB]`, the
single-field timestamp edit `cBts` at sorted index 1 moves the entry before
`gA`; `rechain_transactions` from index 1 succeeds but leaves the stale entry
at sorted index 0 untouched, and re-verification still fails, so the claim as
stated (restoration after any single-field edit) is false. -/
theorem rechain_after_ts_edit_cex :
    (verify_chain_integrity [gA, cB]).is_valid = true ∧
    cBts = { cB with timestamp := 500 } ∧
    (verify_chain_integrity ((sortTs [gA, cB]).set 1 cBts)).is_valid = false ∧
    (rechain_transactions ((sortTs [gA, cB]).set 1 cBts) 1).map
        (fun R => (verify_chain_integrity R).is_valid) = some false := by
  exact ⟨by decide, rfl, by decide, by decide⟩

/-- C3 (amended): for every valid chain and every edit of the entry at sorted
index `k` that preserves that entry's timestamp (in particular any
single-field edit to a field other than `timestamp`), rechaining from `k`
succeeds (no predecessor read can hit a missing hash: the prefix of a valid
chain carries stored hashes) and re-verifying the full returned sequence
yields valid. -/
theorem rechain_restores_validity (txs : List Transaction) (k : Nat) (e : Transaction)
    (hvalid : (verify_chain_integrity txs).is_valid = true)
    (hk : k < (sortTs txs).length)
    (hts : e.timestamp = (sortTs txs)[k].timestamp) :
    ∃ R, rechain_transactions ((sortTs txs).set k e) k = some R ∧
      (verify_chain_integrity R).is_valid = true := by
  have hok : chainOkB none (sortTs txs) = true := (verify_valid_iff txs).mp hvalid
  have hsorted : List.Sorted tsLE (sortTs txs) := sortTs_sorted txs
  have hLsorted : List.Sorted tsLE ((sortTs txs).set k e) :=
    sorted_set_ts_eq (sortTs txs) k e hk hts hsorted
  have hkL : k < ((sortTs txs).set k e).length := by
    rw [List.length_set]
    exact hk
  have hru := rechain_unfold ((sortTs txs).set k e) k hkL
  have hsortL : sortTs ((sortTs txs).set k e) = (sortTs txs).set k e :=
    sortTs_eq_self hLsorted
  have hupto : chainOkUpto none k ((sortTs txs).set k e) = true := by
    rw [chainOkUpto_set (sortTs txs) none k k e (le_refl k)]
    exact chainOkUpto_of_chainOkB (sortTs txs) none k hok
  obtain ⟨R, hR, hRok⟩ :=
    rechainLoop_some_of_upto ((sortTs txs).set k e) none k hupto trivial
  refine ⟨R, ?_, ?_⟩
  · rw [hru, hsortL]
    exact hR
  · have hRsorted : List.Sorted tsLE R := by
      rw [sorted_iff_mapTs, rechainLoop_map_ts ((sortTs txs).set k e) none k R hR,
        ← sorted_iff_mapTs]
      exact hLsorted
    rw [verify_valid_iff, sortTs_eq_self hRsorted]
    exact hRok

/-- C3 witness: an amount edit at sorted index 1 of the concrete chain breaks
verification, and rechaining from index 1 returns a list that verifies. -/
theorem rechain_restores_validity_witness :
    (verify_chain_integrity [gA, cB]).is_valid = true ∧
    (verify_chain_integrity ((sortTs [gA, cB]).set 1 cBamt)).is_valid = false ∧
    (∃ R, rechain_transactions ((sortTs [gA, cB]).set 1 cBamt) 1 = some R ∧
      (verify_chain_integrity R).is_valid = true) :=
  ⟨by decide, by decide,
    rechain_restores_validity [gA, cB] 1 cBamt (by decide) (by decide) (by decide)⟩

/-- C4 counterexample: two same-day entries in a permuted input list produce a
different daily Merkle root, because `get_daily_merkle_root` takes the
filtered entries in input-list order without sorting them by timestamp. -/
theorem daily_root_order_cex :
    List.Perm [mk4a, mk4b] [mk4b, mk4a] ∧
    get_daily_merkle_root [mk4a, mk4b] 0 ≠ get_daily_merkle_root [mk4b, mk4a] 0 := by
  constructor
  · decide
  · decide

/-- C4 (amended): `get_daily_merkle_root` filters to entries with timestamp
in the inclusive window `[startOfDay, startOfDay + 86399999]`, keeps them in
input-list order (a sublist of the input), and the Merkle leaves are exactly
the filtered entries' stored `currentHash` values in that order; the root is
a function of the filtered list, so it is reproducible for the same input
list, but it is not invariant under reordering the input. -/
theorem daily_root_structure (txs : List Transaction) (startMs : Int) :
    (∀ t : Transaction, t ∈ dailyEntries txs startMs ↔
        (t ∈ txs ∧ startMs ≤ t.timestamp ∧ t.timestamp ≤ startMs + 86399999)) ∧
    List.Sublist (dailyEntries txs startMs) txs ∧
    get_daily_merkle_root txs startMs =
      (generate_merkle_tree (dailyEntries txs startMs)).root ∧
    (∀ (t0 : Transaction) (rest : List Transaction),
        dailyEntries txs startMs = t0 :: rest →
        (generate_merkle_tree (dailyEntries txs startMs)).tree.headD [] =
          (dailyEntries txs startMs).map fun t => t.currentHash.getD "") := by
  refine ⟨?_, List.filter_sublist _, rfl, ?_⟩
  · intro t
    simp [dailyEntries, List.mem_filter, inDay, Bool.and_eq_true, decide_eq_true_eq,
      and_assoc]
  · intro t0 rest hcons
    rw [generate_merkle_tree, if_neg (by simp [hcons])]
    show (buildLevels ((dailyEntries txs startMs).map fun t => t.currentHash.getD "")).headD [] = _
    rw [buildLevels_headD]

/-- C4 witness: the amended statement at a concrete two-entry input. -/
theorem daily_root_structure_witness :
    (∀ t : Transaction, t ∈ dailyEntries [mk4a, mk4b] 0 ↔
        (t ∈ [mk4a, mk4b] ∧ 0 ≤ t.timestamp ∧ t.timestamp ≤ 0 + 86399999)) ∧
    List.Sublist (dailyEntries [mk4a, mk4b] 0) [mk4a, mk4b] ∧
    get_daily_merkle_root [mk4a, mk4b] 0 =
      (generate_merkle_tree (dailyEntries [mk4a, mk4b] 0)).root ∧
    (∀ (t0 : Transaction) (rest : List Transaction),
        dailyEntries [mk4a, mk4b] 0 = t0 :: rest →
        (generate_merkle_tree (dailyEntries [mk4a, mk4b] 0)).tree.headD [] =
          (dailyEntries [mk4a, mk4b] 0).map fun t => t.currentHash.getD "") :=
  daily_root_structure [mk4a, mk4b] 0

/-- C5 counterexample: with the in-range `from_index = 1` and a sorted
predecessor whose `currentHash` key is missing, the source raises an uncaught
`KeyError` at `updated_transactions[0]["currentHash"]` and produces no list
at all (modelled as `none`), so rechain does not process every entry list in
the way the claim states. -/
theorem rechain_missing_hash_cex :
    1 < ([prev10, tx6c] : List Transaction).length ∧
    rechain_transactions [prev10, tx6c] 1 = none :=
  ⟨by decide, by decide⟩

/-- C5 (amended): whenever `rechain_transactions` with an in-range
`from_index` returns a list (it raises `KeyError` instead exactly when the
first processed position must read a predecessor with no stored
`currentHash`), the result has the input's length, positions before
`from_index` are the sorted input's entries unchanged, and from `from_index`
on: position 0 receives the genesis sentinel as `previousHash`, every later
position's `previousHash` is the already-updated `currentHash` of the
preceding position, and every processed entry's `currentHash` is recomputed
from its own fields; all non-hash fields (including `version`) are preserved,
so the claim's rule "bump `version` when a non-hash field changed" holds
vacuously — the source never changes a non-hash field and never bumps
`version`. -/
theorem rechain_positional_spec (txs : List Transaction) (k : Nat)
    (R : List Transaction) (hk : k < txs.length)
    (hR : rechain_transactions txs k = some R) :
    R.length = txs.length ∧
    (∀ i, i < k → R[i]? = (sortTs txs)[i]?) ∧
    (k = 0 → (R[0]?).map (fun t => t.previousHash) = some (some GENESIS_HASH)) ∧
    (∀ i, k ≤ i + 1 → i + 1 < txs.length →
        (R[i + 1]?).map (fun t => t.previousHash) =
          (R[i]?).map (fun t => t.currentHash)) ∧
    (∀ i t, k ≤ i → R[i]? = some t → t.currentHash = some (compute_hash t)) ∧
    (∀ (i : Nat) (a b : Transaction), R[i]? = some a → (sortTs txs)[i]? = some b →
        sameNonHash a b ∧ (¬ sameNonHash a b → a.version = b.version + 1)) := by
  rw [rechain_unfold txs k hk] at hR
  refine ⟨?_, ?_, ?_, ?_, ?_, ?_⟩
  · rw [rechainLoop_length (sortTs txs) none k R hR, length_sortTs]
  · intro i hi
    exact rechainLoop_getElem_lt (sortTs txs) none k i R hR hi
  · intro hk0
    subst hk0
    have hlen : 0 < (sortTs txs).length := by rw [length_sortTs]; omega
    have hne : sortTs txs ≠ [] := by
      intro hc
      rw [hc] at hlen
      simp at hlen
    obtain ⟨s, S2, hS⟩ := List.exists_cons_of_ne_nil hne
    rw [hS] at hR
    obtain ⟨t2, R2, -, hRe, hprev, -, -⟩ := rechainLoop_zero_some none s S2 R hR
    subst hRe
    simp only [List.getElem?_cons_zero, Option.map_some']
    rw [hprev]
  · intro i h1 h2
    exact rechainLoop_link (sortTs txs) none k i R hR h1 (by rw [length_sortTs]; omega)
  · intro i t hi ht
    exact rechainLoop_hash (sortTs txs) none k i R t hR hi ht
  · intro i a b ha hb
    have hsame := rechainLoop_sameNonHash (sortTs txs) none k i R a b hR ha hb
    exact ⟨hsame, fun hc => (hc hsame).elim⟩

/-- C5 witness: the positional description at a concrete two-entry chain with
`from_index = 1`, on which rechain returns a list. -/
theorem rechain_positional_spec_witness :
    ∃ R, rechain_transactions [gA, cB] 1 = some R ∧
      1 < ([gA, cB] : List Transaction).length ∧
      (R.length = ([gA, cB] : List Transaction).length ∧
      (∀ i, i < 1 → R[i]? = (sortTs [gA, cB])[i]?) ∧
      (1 = 0 → (R[0]?).map (fun t => t.previousHash) = some (some GENESIS_HASH)) ∧
      (∀ i, 1 ≤ i + 1 → i + 1 < ([gA, cB] : List Transaction).length →
          (R[i + 1]?).map (fun t => t.previousHash) =
            (R[i]?).map (fun t => t.currentHash)) ∧
      (∀ i t, 1 ≤ i → R[i]? = some t → t.currentHash = some (compute_hash t)) ∧
      (∀ (i : Nat) (a b : Transaction), R[i]? = some a →
          (sortTs [gA, cB])[i]? = some b →
          sameNonHash a b ∧ (¬ sameNonHash a b → a.version = b.version + 1))) := by
  have hs : (rechain_transactions [gA, cB] 1).isSome = true := by decide
  obtain ⟨R, hR⟩ := Option.isSome_iff_exists.mp hs
  exact ⟨R, hR, by decide, rechain_positional_spec [gA, cB] 1 R (by decide) hR⟩

/-- C6 (amended): whenever `verify_chain_integrity` reports invalid, exactly
one structured error was recorded; its index is the earliest position of the
timestamp-sorted list at which integrity breaks, it carries the id of the
entry at that position, entries after it were not verified (the verified
count equals the error index), and the integrity score is
`verifiedCount / total * 100` rounded to two decimal places. -/
theorem verify_failfast_report (txs : List Transaction)
    (h : (verify_chain_integrity txs).is_valid = false) :
    ∃ e : ChainError,
      (verify_chain_integrity txs).errors = [e] ∧
      posOk (sortTs txs) e.index = false ∧
      (∀ j, j < e.index → posOk (sortTs txs) j = true) ∧
      (verify_chain_integrity txs).verified_count = e.index ∧
      e.index < txs.length ∧
      ((sortTs txs)[e.index]?).map (fun t => t.id) = some e.transaction_id ∧
      (verify_chain_integrity txs).integrity_score =
        round2 ((e.index : ℚ) / (txs.length : ℚ) * 100) ∧
      (verify_chain_integrity txs).failed_at_index = some e.index ∧
      (verify_chain_integrity txs).failed_transaction_id = some e.transaction_id := by
  have hne : txs ≠ [] := by
    intro hc
    subst hc
    simp [verify_chain_integrity] at h
  rw [verify_eq_of_ne_nil txs hne] at h ⊢
  dsimp only at h ⊢
  have hcount : (verifyLoop none 0 (sortTs txs)).1 ≠ txs.length := by
    simpa using h
  have herrne : (verifyLoop none 0 (sortTs txs)).2 ≠ [] := by
    intro hc
    have h1 := (verifyLoop_snd_nil_iff (sortTs txs) none 0).mp hc
    have h2 := (verifyLoop_fst_eq_iff (sortTs txs) none 0).mpr h1
    rw [length_sortTs] at h2
    exact hcount h2
  obtain ⟨e, he, hei, hlt, hbad, hpre, hid⟩ := verifyLoop_invalid (sortTs txs) none 0 herrne
  rw [length_sortTs] at hlt
  have heidx : e.index = (verifyLoop none 0 (sortTs txs)).1 := by omega
  refine ⟨e, he, ?_, ?_, ?_, ?_, ?_, ?_, ?_, ?_⟩
  · rw [posOk, heidx]
    exact hbad
  · intro j hj
    rw [posOk]
    exact hpre j (by omega)
  · omega
  · omega
  · rw [heidx]
    exact hid
  · rw [heidx]
  · rw [he]
    simp [heidx]
  · rw [he]
    simp

/-- C6 witness: a single entry with no stored hash fails verification; the
fail-fast report has the promised shape. -/
theorem verify_failfast_report_witness :
    (verify_chain_integrity [tx6]).is_valid = false ∧
    (∃ e : ChainError,
      (verify_chain_integrity [tx6]).errors = [e] ∧
      posOk (sortTs [tx6]) e.index = false ∧
      (∀ j, j < e.index → posOk (sortTs [tx6]) j = true) ∧
      (verify_chain_integrity [tx6]).verified_count = e.index ∧
      e.index < ([tx6] : List Transaction).length ∧
      ((sortTs [tx6])[e.index]?).map (fun t => t.id) = some e.transaction_id ∧
      (verify_chain_integrity [tx6]).integrity_score =
        round2 ((e.index : ℚ) / (([tx6] : List Transaction).length : ℚ) * 100) ∧
      (verify_chain_integrity [tx6]).failed_at_index = some e.index ∧
      (verify_chain_integrity [tx6]).failed_transaction_id = some e.transaction_id) :=
  ⟨by decide, verify_failfast_report [tx6] (by decide)⟩

/-- C6 counterexample: three entries of which one is verified give integrity
score `round(100/3, 2) = 33.33`, which differs from the claim's exact
`verifiedCount/total*100 = 100/3`; the code rounds to two decimals. -/
theorem integrity_score_rounding_cex :
    (verify_chain_integrity [gA, bad6, tx6c]).is_valid = false ∧
    (verify_chain_integrity [gA, bad6, tx6c]).verified_count = 1 ∧
    (verify_chain_integrity [gA, bad6, tx6c]).total_transactions = 3 ∧
    (verify_chain_integrity [gA, bad6, tx6c]).integrity_score ≠
      ((verify_chain_integrity [gA, bad6, tx6c]).verified_count : ℚ) /
        ((verify_chain_integrity [gA, bad6, tx6c]).total_transactions : ℚ) * 100 := by
  have hne : ([gA, bad6, tx6c] : List Transaction) ≠ [] := by simp
  have h1 : (verifyLoop none 0 (sortTs [gA, bad6, tx6c])).1 = 1 := by decide
  rw [verify_eq_of_ne_nil _ hne]
  rw [h1]
  refine ⟨rfl, rfl, rfl, ?_⟩
  have hcast1 : ((1 : ℕ) : ℚ) = 1 := by norm_num
  have hcast3 : ((([gA, bad6, tx6c] : List Transaction).length : ℕ) : ℚ) = 3 := by
    norm_num
  rw [hcast1, hcast3]
  have hq : (1 : ℚ) / 3 * 100 * 100 = 10000 / 3 := by norm_num
  have hf : ⌊(10000 : ℚ) / 3⌋ = 3333 := by
    rw [Int.floor_eq_iff]
    norm_num
  rw [round2, roundHalfEven]
  dsimp only
  rw [hq, hf]
  have hr : (10000 : ℚ) / 3 - ((3333 : ℤ) : ℚ) = 1 / 3 := by norm_num
  rw [hr, if_pos (by norm_num : (1 : ℚ) / 3 < 1 / 2)]
  norm_num

/-- C7: a day whose filtered entry set is empty always produces the fixed
sentinel root, the SHA-256 digest of the constant marker string "empty";
the function is total, so no error is possible. -/
theorem empty_day_root_sentinel (txs : List Transaction) (startMs : Int)
    (h : dailyEntries txs startMs = []) :
    get_daily_merkle_root txs startMs = sha256hex "empty" ∧
    sha256hex "empty" =
      "2e1cfa82b035c26cbbbdae632cea070514eb8b773f616aaeaf668e2f0be8f10d" := by
  refine ⟨?_, by decide⟩
  show (generate_merkle_tree (dailyEntries txs startMs)).root = sha256hex "empty"
  rw [h]
  rfl

/-- C7 witness: a day matched by no entry yields the sentinel root. -/
theorem empty_day_root_sentinel_witness :
    dailyEntries [out7] 0 = [] ∧
    (get_daily_merkle_root [out7] 0 = sha256hex "empty" ∧
     sha256hex "empty" =
       "2e1cfa82b035c26cbbbdae632cea070514eb8b773f616aaeaf668e2f0be8f10d") :=
  ⟨by decide, empty_day_root_sentinel [out7] 0 (by decide)⟩

/-- C8 counterexample: one transaction flagged by two heuristics (future
timestamp and negative amount) is counted twice: the risk score is 40 while
20 points per distinct flagged entry (here one) would give 20. -/
theorem risk_score_distinct_cex :
    (detect_tampering_patterns 0 [tx8]).risk_score = 40 ∧
    (detect_tampering_patterns 0 [tx8]).suspicious_transactions.length = 1 ∧
    (detect_tampering_patterns 0 [tx8]).risk_score ≠
      min 100 (20 * (detect_tampering_patterns 0 [tx8]).suspicious_transactions.length) := by
  refine ⟨by decide, by decide, by decide⟩

/-- C8 (amended): the risk score is `min(100, 20 · n)` where `n` counts flag
occurrences (an entry flagged by several heuristics counts once per flag, not
once per distinct entry), so it always lies in `0..100`; the returned
suspicious-id list is the deduplication of those occurrences. -/
theorem risk_score_capped_occurrences (now : Int) (txs : List Transaction) :
    (detect_tampering_patterns now txs).risk_score
        = min 100 ((suspiciousRaw now txs).length * 20) ∧
    (detect_tampering_patterns now txs).risk_score ≤ 100 ∧
    (detect_tampering_patterns now txs).suspicious_transactions
        = (suspiciousRaw now txs).eraseDups := by
  by_cases h : txs.isEmpty = true
  · rw [List.isEmpty_iff] at h
    subst h
    refine ⟨rfl, ?_, rfl⟩
    rw [detect_tampering_patterns]
    exact Nat.zero_le 100
  · rw [detect_tampering_patterns, if_neg h]
    exact ⟨rfl, Nat.min_le_left _ _, rfl⟩

/-- C9: when a day's filtered set is exactly one entry, the Merkle root is
that entry's stored `currentHash` verbatim: no pairwise combination or extra
hashing is applied to a single leaf. -/
theorem single_leaf_root_is_leaf (txs : List Transaction) (startMs : Int)
    (e : Transaction) (v : String)
    (h1 : dailyEntries txs startMs = [e]) (h2 : e.currentHash = some v) :
    get_daily_merkle_root txs startMs = v := by
  show (generate_merkle_tree (dailyEntries txs startMs)).root = v
  rw [h1, generate_merkle_tree_single]
  show e.currentHash.getD "" = v
  rw [h2]
  rfl

/-- C9 witness: a concrete day whose only matching entry has stored hash
"leafhash" produces exactly that root. -/
theorem single_leaf_root_is_leaf_witness :
    dailyEntries [out7, in9] 0 = [in9] ∧
    in9.currentHash = some "leafhash" ∧
    get_daily_merkle_root [out7, in9] 0 = "leafhash" :=
  ⟨by decide, by decide,
    single_leaf_root_is_leaf [out7, in9] 0 in9 "leafhash" (by decide) (by decide)⟩

/-- C10: when the previous transaction given to
`create_chained_transaction` has no `currentHash` value, the new entry's
`previousHash` is silently set to the genesis sentinel and a fully formed
entry is still produced (its `currentHash` computed over the sentinel link);
nothing is rejected and no error is raised, so a malformed tail yields a
second genesis-linked entry. -/
theorem chained_missing_tail_genesis (d prev : Transaction)
    (h : prev.currentHash = none) :
    (create_chained_transaction d prev).previousHash = some GENESIS_HASH ∧
    (create_chained_transaction d prev).currentHash =
      some (compute_hash (create_chained_transaction d prev)) := by
  refine ⟨?_, rfl⟩
  simp [create_chained_transaction, h]

/-- C10 witness: a concrete tail with a missing stored hash produces a
genesis-linked chained entry. -/
theorem chained_missing_tail_genesis_witness :
    prev10.currentHash = none ∧
    ((create_chained_transaction txA prev10).previousHash = some GENESIS_HASH ∧
     (create_chained_transaction txA prev10).currentHash =
       some (compute_hash (create_chained_transaction txA prev10))) :=
  ⟨rfl, chained_missing_tail_genesis txA prev10 rfl⟩
